import Mathlib

/-!
Shallow embedding of the godevwatch build orchestrator.

File names, build ids and command lines are modelled as lists of
characters (a Go string holding a file name).  The build-status
directory is modelled as the list of file names it contains; file
contents are irrelevant to the verified operations except for the
current-build-id pointer, whose presence is tracked by its name.

Sources embedded here:
  - build_tracker.go  (the variant that persists a current-build-id
    pointer): SetStatus, ClearBuild, CleanupOldFailed, GetBuilds,
    extractTimestamp, NewBuild's pointer write;
  - watcher.go (the variant with per-rule build rules and the
    changed-files trigger channel): matchesPattern, determineRulesToRun,
    triggerBuild, executeBuild;
  - command.go: streamOutput, Kill;
  - proxy.go: the ProcessManager stop/run operations (as trace events).
-/

namespace Godevwatch

/-- Name is a Go string (file name, build id, pattern, ...) viewed as
its list of characters. -/
abbrev Name := List Char

/-! ## String helpers mirroring the Go standard library -/

/-- Model of strings.Split(s, "-") for a single-character separator:
splits at every occurrence of the separator, keeping empty fields.
Never returns the empty list. -/
def splitOnSep (sep : Char) : List Char → List (List Char)
  | [] => [[]]
  | c :: cs =>
    if c = sep then [] :: splitOnSep sep cs
    else
      match splitOnSep sep cs with
      | [] => [[c]]
      | p :: ps => (c :: p) :: ps

/-- Inverse of splitOnSep: interleaves the separator between the parts
(model of strings.Join(parts, "-")). -/
def joinSep (sep : Char) : List (List Char) → List Char
  | [] => []
  | [p] => p
  | p :: q :: ps => p ++ sep :: joinSep sep (q :: ps)

/-- Model of strings.TrimSuffix: removes one trailing occurrence of the
suffix when present, otherwise returns the string unchanged. -/
def trimSuffix (l suf : List Char) : List Char :=
  if suf.isSuffixOf l then l.take (l.length - suf.length) else l

/-- Model of strings.HasSuffix. -/
def hasSuffix (l suf : List Char) : Bool :=
  suf.isSuffixOf l

/-- Numeric value of a list of decimal digits (most significant first). -/
def digitsToNat (l : List Char) : Nat :=
  l.foldl (fun a c => a * 10 + (c.toNat - 48)) 0

/-- Model of strconv.ParseInt(s, 10, 64): an optional sign followed by
at least one decimal digit, with the int64 range check; none models a
parse error. -/
def parseInt64 (s : List Char) : Option Int :=
  let signed : Bool × List Char :=
    match s with
    | '-' :: rest => (true, rest)
    | '+' :: rest => (false, rest)
    | _ => (false, s)
  let ds := signed.2
  if ds.isEmpty then none
  else if !(ds.all Char.isDigit) then none
  else
    let v : Int := (digitsToNat ds : Nat)
    if signed.1 then
      if 2 ^ 63 < v then none else some (-v)
    else
      if 2 ^ 63 ≤ v then none else some v

/-! ## Build ledger (build_tracker.go) -/

/-- BuildStatus represents the status of a build. -/
inductive BuildStatus
  | building
  | failed
  | aborted
deriving DecidableEq, Repr

/-- Characters of the on-disk status suffix for each status. -/
def statusChars : BuildStatus → Name
  | .building => ['b', 'u', 'i', 'l', 'd', 'i', 'n', 'g']
  | .failed => ['f', 'a', 'i', 'l', 'e', 'd']
  | .aborted => ['a', 'b', 'o', 'r', 't', 'e', 'd']

/-- Status-file name for a build: fmt.Sprintf("%s-%s", buildID, status). -/
def statusFileName (buildID : Name) (status : BuildStatus) : Name :=
  buildID ++ '-' :: statusChars status

/-- Name of the current-build-id pointer file. -/
def ptrName : Name :=
  ['c', 'u', 'r', 'r', 'e', 'n', 't', '-', 'b', 'u', 'i', 'l', 'd', '-', 'i', 'd']

/-- Whether a file name is matched by the removal glob buildID-*.
For ledger ids (digits and a dash, no glob metacharacters) and
slash-free file names, filepath.Glob(buildID + "-*") matches exactly
the names extending buildID with the dash separator. -/
def globDel (buildID : Name) (name : Name) : Bool :=
  (buildID ++ ['-']).isPrefixOf name

/-- SetStatus (build_tracker.go): removes every file matching the glob
buildID-* from the status directory, then creates the single file
buildID-status. -/
def SetStatus (buildID : Name) (status : BuildStatus) (files : List Name) : List Name :=
  statusFileName buildID status :: files.filter (fun n => !globDel buildID n)

/-- ClearBuild (build_tracker.go): removes every file matching the glob
buildID-*. -/
def ClearBuild (buildID : Name) (files : List Name) : List Name :=
  files.filter (fun n => !globDel buildID n)

/-- extractTimestamp (build_tracker.go): splits the build id on the dash
and parses the first component as an int64. -/
def extractTimestamp (buildID : Name) : Option Int :=
  match splitOnSep '-' buildID with
  | [] => none
  | p0 :: _ => parseInt64 p0

/-- Suffix "-failed". -/
def failedSuf : Name := '-' :: statusChars .failed

/-- Suffix "-aborted". -/
def abortedSuf : Name := '-' :: statusChars .aborted

/-- Per-file deletion test performed by CleanupOldFailed for a current
timestamp: the name must carry the failed or aborted suffix, its build
id (obtained by trimming the "-failed" suffix and then the "-aborted"
suffix) must have a parseable timestamp, and that timestamp must be at
most the current one. -/
def cleanupDeletes (currentTimestamp : Int) (name : Name) : Bool :=
  if hasSuffix name failedSuf || hasSuffix name abortedSuf then
    match extractTimestamp (trimSuffix (trimSuffix name failedSuf) abortedSuf) with
    | none => false
    | some ts => ts ≤ currentTimestamp
  else false

/-- CleanupOldFailed (build_tracker.go): when the current build id has a
parseable timestamp, removes every failed or aborted record whose
timestamp is at most the current one; on a parse error it returns the
directory unchanged (the Go function returns an error that the
orchestrator ignores). -/
def CleanupOldFailed (currentBuildID : Name) (files : List Name) : List Name :=
  match extractTimestamp currentBuildID with
  | none => files
  | some t => files.filter (fun n => !cleanupDeletes t n)

/-- Build record reconstructed by GetBuilds; the Go struct stores the
timestamp as time.Unix(ts, 0), modelled by the integer ts. -/
structure Build where
  id : Name
  status : Name
  ts : Int
deriving DecidableEq, Repr

/-- Per-file parse performed by GetBuilds: split on the dash, require at
least two components, take the last component as the status, trim
"-" + status to obtain the id, and require a parseable timestamp. -/
def parseBuild (name : Name) : Option Build :=
  if (splitOnSep '-' name).length < 2 then none
  else
    match extractTimestamp (trimSuffix name ('-' :: (splitOnSep '-' name).getLastD [])) with
    | none => none
    | some ts =>
      some ⟨trimSuffix name ('-' :: (splitOnSep '-' name).getLastD []),
        (splitOnSep '-' name).getLastD [], ts⟩

/-- GetBuilds (build_tracker.go): reconstructs a record from every
parseable file name, skipping unparseable entries.  os.ReadDir yields
names in sorted order; this model keeps the list order of the modelled
directory, which leaves membership unchanged. -/
def GetBuilds (files : List Name) : List Build :=
  files.filterMap parseBuild

/-- Well-formedness of a ledger build id as produced by NewBuild:
unix-timestamp digits, a dash, and pid digits. -/
def wfId (buildID : Name) : Bool :=
  match splitOnSep '-' buildID with
  | [t, p] => !t.isEmpty && !p.isEmpty && t.all Char.isDigit && p.all Char.isDigit
  | _ => false

/-- Ledger operations whose sequences the at-most-one-record invariant
quantifies over. -/
inductive LedgerOp
  | set (buildID : Name) (status : BuildStatus)
  | clear (buildID : Name)
deriving DecidableEq, Repr

/-- Applies one ledger operation to the status directory. -/
def applyLedgerOp (files : List Name) : LedgerOp → List Name
  | .set buildID status => SetStatus buildID status files
  | .clear buildID => ClearBuild buildID files

/-- Applies a sequence of ledger operations in order. -/
def applyLedgerOps (ops : List LedgerOp) (files : List Name) : List Name :=
  ops.foldl applyLedgerOp files

/-- The build id an operation acts on. -/
def LedgerOp.buildID : LedgerOp → Name
  | .set i _ => i
  | .clear i => i

/-! ## Glob matching (model of Go path/filepath.Match) and the
watcher pattern matching (watcher.go) -/

/-- Model of getEsc inside filepath.Match: reads one possibly escaped
character of a character-class range; fails on a dangling escape, on a
leading dash or closing bracket, and when nothing follows (the class
must still be closed). -/
def getEsc : List Char → Option (Char × List Char)
  | [] => none
  | c :: rest =>
    if c = '-' ∨ c = ']' then none
    else if c = '\\' then
      match rest with
      | [] => none
      | c2 :: rest2 => if rest2.isEmpty then none else some (c2, rest2)
    else if rest.isEmpty then none else some (c, rest)

/-- Model of the character-class loop of filepath.Match: given the
pattern after an opening bracket and the character read from the name,
parses the optional negation and one or more ranges up to the closing
bracket, returning whether the character matched together with the
remaining pattern; none models ErrBadPattern.  The fuel argument bounds
the recursion; every step consumes pattern characters, so fuel equal to
the pattern length suffices. -/
def classLoop (r : Char) (fuel : Nat) (chunk : List Char) (sawRange : Bool)
    (acc : Bool) : Option (Bool × List Char) :=
  match fuel with
  | 0 => none
  | fuel + 1 =>
    match chunk with
    | ']' :: rest =>
      if sawRange then some (acc, rest)
      else none
    | chunk =>
      match getEsc chunk with
      | none => none
      | some (lo, rest) =>
        match rest with
        | '-' :: rest2 =>
          match getEsc rest2 with
          | none => none
          | some (hi, rest3) =>
            classLoop r fuel rest3 true (acc || (lo ≤ r ∧ r ≤ hi))
        | rest =>
          classLoop r fuel rest true (acc || (lo = r))

/-- Parses a character class against a character: optional leading caret
negates the result of the range loop. -/
def matchClass (r : Char) (chunk : List Char) : Option (Bool × List Char) :=
  match chunk with
  | '^' :: rest =>
    match classLoop r rest.length rest false false with
    | none => none
    | some (m, rest2) => some (!m, rest2)
  | chunk =>
    match classLoop r chunk.length chunk false false with
    | none => none
    | some (m, rest2) => some (m, rest2)

/-- Model of filepath.Match(pattern, name) returning true: the classic
glob relation where the star matches any run of non-separator
characters, the question mark one non-separator character, bracket
classes one character, and a backslash escapes the next pattern
character.  Malformed patterns never match (Go reports ErrBadPattern,
and the caller requires a nil error).  The fuel argument bounds the
recursion; every step consumes pattern or name characters, so fuel
above the sum of both lengths suffices. -/
def globMatch (fuel : Nat) (pattern name : List Char) : Bool :=
  match fuel with
  | 0 => false
  | fuel + 1 =>
    match pattern, name with
    | [], n => n.isEmpty
    | '*' :: ps, n =>
      globMatch fuel ps n ||
        (match n with
         | [] => false
         | c :: cs => !(c = '/') && globMatch fuel ('*' :: ps) cs)
    | '?' :: ps, n =>
      match n with
      | [] => false
      | c :: cs => !(c = '/') && globMatch fuel ps cs
    | '[' :: ps, n =>
      match n with
      | [] => false
      | c :: cs =>
        match matchClass c ps with
        | none => false
        | some (ok, rest) => ok && globMatch fuel rest cs
    | '\\' :: ps, n =>
      match ps, n with
      | [], _ => false
      | _ :: _, [] => false
      | pc :: ps2, c :: cs => pc = c && globMatch fuel ps2 cs
    | pc :: ps, n =>
      match n with
      | [] => false
      | c :: cs => pc = c && globMatch fuel ps cs

/-- filepath.Match success, with the fuel instantiated large enough for
any input. -/
def filepathMatch (pattern name : List Char) : Bool :=
  globMatch (pattern.length + name.length + 1) pattern name

/-- Model of filepath.Base: the empty path gives a dot, trailing slashes
are stripped, the last slash-separated element is kept, and a path of
only slashes gives a single slash. -/
def baseName (path : Name) : Name :=
  if path.isEmpty then ['.']
  else
    let q := (path.reverse.dropWhile (fun c => c = '/')).reverse
    if q.isEmpty then ['/']
    else (q.reverse.takeWhile (fun c => !(c = '/'))).reverse

/-- Characters of the recursive-wildcard marker "**" + "/*". -/
def recMarker : Name := ['*', '*', '/', '*']

/-- Model of strings.TrimPrefix: removes one leading occurrence of the
given part when present. -/
def trimStart (l pre : List Char) : List Char :=
  if pre.isPrefixOf l then l.drop pre.length else l

/-- matchesPattern (watcher.go): a changed path matches a watch pattern
when its base name matches the pattern as a glob, or when the pattern
contains the recursive-wildcard marker and the path ends with the
pattern minus its leading marker (strings.TrimPrefix leaves patterns
unchanged whose marker is not a leading occurrence). -/
def matchesPattern (path pattern : Name) : Bool :=
  filepathMatch pattern (baseName path) ||
    (decide (recMarker <:+: pattern) && (trimStart pattern recMarker).isSuffixOf path)

/-- BuildRule (config.go): name, watch patterns in order, command. -/
structure BuildRule where
  name : Name
  watch : List Name
  command : Name
deriving DecidableEq, Repr

/-- Whether any changed file matches any of the watch patterns of a
rule (the inner two loops of determineRulesToRun; the Go code records a
hit in a map keyed by the rule index and breaks out of the pattern
loop after the first hit). -/
def ruleMatched (rule : BuildRule) (changedFiles : List Name) : Bool :=
  changedFiles.any fun f => rule.watch.any fun pat => matchesPattern f pat

/-- determineRulesToRun (watcher.go): with no changed files every
configured rule runs; otherwise the rules with at least one matching
changed file run, in declared order (the Go code emits the rules whose
index was recorded in the match map, walking the configured list in
order, which is a filter). -/
def determineRulesToRun (rules : List BuildRule) (changedFiles : List Name) : List BuildRule :=
  if changedFiles.length = 0 then rules
  else rules.filter (fun r => ruleMatched r changedFiles)

/-! ## Process supervisor (command.go) -/

/-- Result of one output-streaming goroutine: the lines handed to the
callback and the number of lines consumed from the pipe. -/
structure StreamResult where
  delivered : List Name
  consumed : Nat
deriving DecidableEq, Repr

/-- The bufio.Scanner loop of streamOutput: delivers every line to the
callback, consuming the stream to end-of-stream. -/
def scanAll : List Name → StreamResult
  | [] => ⟨[], 0⟩
  | l :: ls =>
    let r := scanAll ls
    ⟨l :: r.delivered, r.consumed + 1⟩

/-- streamOutput (command.go): with a nil callback the function returns
at once, reading nothing; otherwise it scans the whole stream,
delivering each line.  The stream is modelled as its list of lines and
the callback by its presence. -/
def streamOutput (stream : List Name) (hasCallback : Bool) : StreamResult :=
  if hasCallback then scanAll stream else ⟨[], 0⟩

/-- Observable state of the process behind a Command handle when Kill
runs: no process was ever started (cmd or cmd.Process is nil), the
process group is alive with the given pgid, or the process has exited
and been reaped, so Getpgid fails with ESRCH. -/
inductive ProcState
  | notStarted
  | running (pgid : Int)
  | exited
deriving DecidableEq, Repr

/-- Outcome of sending SIGTERM to the process group: delivered, ESRCH
because the group is already gone, or another error. -/
inductive SigRes
  | ok
  | esrch
  | errOther
deriving DecidableEq, Repr

/-- Errors Kill can return: the os package process-already-finished
error produced by the Process.Kill fallback, or any other signalling
error. -/
inductive KillErr
  | processDone
  | other
deriving DecidableEq, Repr

/-- Kill (command.go) as a function of the process state and the SIGTERM
outcome; none models a nil error.  With no process the guard returns
nil.  With an exited, reaped process Getpgid fails, so the fallback
calls Process.Kill, which reports ErrProcessDone, and Kill returns that
error.  With a live group, a SIGTERM error other than ESRCH is
returned; otherwise Kill waits for exit, escalating to SIGKILL after
the timeout, and returns nil on both paths. -/
def Kill : ProcState → SigRes → Option KillErr
  | .notStarted, _ => none
  | .exited, _ => some .processDone
  | .running _, .errOther => some .other
  | .running _, .ok => none
  | .running _, .esrch => none

/-! ## Build trigger channel (watcher.go) -/

/-- Contents of the capacity-1 buildTrigger channel: a queue of at most
one pending message, each message the changed-files slice (none is the
nil slice of the startup trigger). -/
abbrev TriggerMsg := Option (List Name)

/-- triggerBuild (watcher.go): a select with a default branch sends the
message only when the capacity-1 channel has room; a pending message
makes the send fall through to the default branch, dropping the new
message. -/
def triggerBuild (queue : List TriggerMsg) (msg : TriggerMsg) : List TriggerMsg :=
  if queue.length < 1 then queue ++ [msg] else queue

/-- Channel receive: the orchestrator takes the oldest queued message. -/
def recvTrigger (queue : List TriggerMsg) : Option TriggerMsg × List TriggerMsg :=
  (queue.head?, queue.tail)

/-! ## Build orchestrator (watcher.go executeBuild, proxy.go
ProcessManager), as a trace of events plus a state fold -/

/-- Outcome of running one rule's command: exit zero; non-zero exit with
the current-build reference still set (a genuine failure); or non-zero
exit with the reference already cleared by an external kill (an
abort). -/
inductive RuleOutcome
  | ok
  | fail
  | abortedExt
deriving DecidableEq, Repr

/-- Environment of one orchestration run: the configured rules, the run
command, and the outcome each rule's command would have. -/
structure OrchEnv where
  rules : List BuildRule
  runCmd : Name
  outcome : BuildRule → RuleOutcome

/-- Observable events of executeBuild, in program order. -/
inductive Ev
  | stopApp
  | newBuild (buildID : Name)
  | setStatus (buildID : Name) (status : BuildStatus)
  | clearBuild (buildID : Name)
  | cleanupOld (buildID : Name)
  | runRule (rule : BuildRule)
  | startApp
deriving DecidableEq, Repr

/-- The sequential rule loop of executeBuild: each rule's command runs
in order; on exit zero the loop continues; on a non-zero exit the build
is marked failed or aborted (depending on whether the current-build
reference was externally cleared) and the loop stops.  Returns the
events together with whether every rule succeeded. -/
def runRules (outcome : BuildRule → RuleOutcome) (buildID : Name) :
    List BuildRule → List Ev × Bool
  | [] => ([], true)
  | r :: rs =>
    match outcome r with
    | .ok =>
      let rest := runRules outcome buildID rs
      (Ev.runRule r :: rest.1, rest.2)
    | .fail => ([Ev.runRule r, Ev.setStatus buildID .failed], false)
    | .abortedExt => ([Ev.runRule r, Ev.setStatus buildID .aborted], false)

/-- executeBuild (watcher.go): stop the supervised application unless
the trigger is the startup trigger (a nil changed-files slice), create
the new build id (recording it as current), persist the building
status, select the applicable rules, clear the record and stop if none
match, run the rules in order, and on full success sweep superseded
records, clear this build's record, and start the application if a run
command is configured. -/
def executeBuild (env : OrchEnv) (changedFiles : Option (List Name)) (buildID : Name) :
    List Ev :=
  (match changedFiles with
   | some _ => [Ev.stopApp]
   | none => []) ++
    Ev.newBuild buildID :: Ev.setStatus buildID .building ::
      (if (determineRulesToRun env.rules (changedFiles.getD [])).isEmpty then
        [Ev.clearBuild buildID]
      else
        (runRules env.outcome buildID
            (determineRulesToRun env.rules (changedFiles.getD []))).1 ++
          (if (runRules env.outcome buildID
              (determineRulesToRun env.rules (changedFiles.getD []))).2 then
            Ev.cleanupOld buildID :: Ev.clearBuild buildID ::
              (if env.runCmd.isEmpty then [] else [Ev.startApp])
          else []))

/-- State the events act on: the status-directory contents and whether
the supervised application is running. -/
structure MState where
  files : List Name
  appRunning : Bool
deriving DecidableEq, Repr

/-- Effect of one event: the ledger events apply the corresponding
build-tracker operation (newBuild writes the pointer file), the
application events toggle the running flag, and running a rule touches
neither. -/
def stepEv (s : MState) : Ev → MState
  | .stopApp => { s with appRunning := false }
  | .newBuild _ =>
    { s with files := if ptrName ∈ s.files then s.files else ptrName :: s.files }
  | .setStatus buildID status => { s with files := SetStatus buildID status s.files }
  | .clearBuild buildID => { s with files := ClearBuild buildID s.files }
  | .cleanupOld buildID => { s with files := CleanupOldFailed buildID s.files }
  | .runRule _ => s
  | .startApp => { s with appRunning := true }

/-- Folds a trace of events over a starting state. -/
def runTrace (s : MState) (evs : List Ev) : MState :=
  evs.foldl stepEv s

/-- Spec-side deletion predicate for the superseded-cleanup claim,
phrased through the record view of GetBuilds: a file is superseded when
it parses as a record whose status is failed or aborted and whose
timestamp is at most the current one.  The cleanup code is proved
equivalent to a filter by this predicate. -/
def supersededSpec (currentTimestamp : Int) (f : Name) : Bool :=
  match parseBuild f with
  | none => false
  | some b =>
    (b.status == statusChars .failed || b.status == statusChars .aborted) &&
      decide (b.ts ≤ currentTimestamp)

/-! ## Concrete inputs used by the witnesses -/

/-- Concrete well-formed build id 100-5. -/
def wId1 : Name := ['1', '0', '0', '-', '5']

/-- Concrete well-formed build id 100-7. -/
def wId2 : Name := ['1', '0', '0', '-', '7']

/-- Concrete well-formed build id 99-5. -/
def wId0 : Name := ['9', '9', '-', '5']

/-- Concrete rule watching *.a files. -/
def wRuleA : BuildRule :=
  ⟨['g', 'e', 'n'], [['*', '.', 'a']], ['f', 'a', 'k', 'e', '1']⟩

/-- Concrete rule watching *.b files. -/
def wRuleB : BuildRule :=
  ⟨['c', 'o', 'm'], [['*', '.', 'b']], ['f', 'a', 'k', 'e', '2']⟩

/-- Concrete changed path /x.a. -/
def wPathA : Name := ['/', 'x', '.', 'a']

/-- Concrete orchestration environment with two rules, a run command,
and every rule command exiting zero. -/
def wEnv : OrchEnv :=
  ⟨[wRuleA, wRuleB], ['.', '/', 'a', 'p', 'p'], fun _ => .ok⟩

/-- Concrete trigger message carrying one changed file. -/
def msgA : TriggerMsg := some [['a']]

/-- Concrete trigger message carrying a different changed file. -/
def msgB : TriggerMsg := some [['b']]

/-! ## Lemmas about the string helpers -/

theorem splitOnSep_ne_nil (sep : Char) (l : List Char) : splitOnSep sep l ≠ [] := by
  cases l with
  | nil => simp [splitOnSep]
  | cons c cs =>
    simp only [splitOnSep]
    split
    · simp
    · split <;> simp

theorem joinSep_splitOnSep (sep : Char) (l : List Char) :
    joinSep sep (splitOnSep sep l) = l := by
  induction l with
  | nil => rfl
  | cons c cs ih =>
    simp only [splitOnSep]
    by_cases hc : c = sep
    · rw [if_pos hc]
      obtain ⟨r, rs, hr⟩ : ∃ r rs, splitOnSep sep cs = r :: rs := by
        cases h : splitOnSep sep cs with
        | nil => exact absurd h (splitOnSep_ne_nil sep cs)
        | cons r rs => exact ⟨r, rs, rfl⟩
      rw [hr]
      rw [hr] at ih
      simp only [joinSep, List.nil_append]
      rw [ih, hc]
    · rw [if_neg hc]
      cases h : splitOnSep sep cs with
      | nil => exact absurd h (splitOnSep_ne_nil sep cs)
      | cons p ps =>
        rw [h] at ih
        cases ps with
        | nil =>
          simp only [joinSep] at ih ⊢
          rw [ih]
        | cons q qs =>
          simp only [joinSep, List.cons_append] at ih ⊢
          rw [ih]

theorem splitOnSep_append (sep : Char) (a b : List Char) :
    splitOnSep sep (a ++ sep :: b) = splitOnSep sep a ++ splitOnSep sep b := by
  induction a with
  | nil => simp [splitOnSep]
  | cons c a ih =>
    simp only [List.cons_append, splitOnSep, List.append_eq]
    by_cases hc : c = sep
    · rw [if_pos hc, if_pos hc, ih]
      rfl
    · rw [if_neg hc, if_neg hc, ih]
      cases h : splitOnSep sep a with
      | nil => exact absurd h (splitOnSep_ne_nil sep a)
      | cons p ps => simp

theorem splitOnSep_no_sep (sep : Char) (b : List Char) (hb : ∀ c ∈ b, ¬c = sep) :
    splitOnSep sep b = [b] := by
  induction b with
  | nil => rfl
  | cons c cs ih =>
    simp only [splitOnSep]
    rw [if_neg (hb c (by simp))]
    rw [ih (fun x hx => hb x (by simp [hx]))]

theorem head_splitOnSep (sep : Char) (l : List Char) :
    (splitOnSep sep l).head? = some (l.takeWhile (fun c => c != sep)) := by
  induction l with
  | nil => rfl
  | cons c cs ih =>
    simp only [splitOnSep, List.takeWhile]
    by_cases hc : c = sep
    · rw [if_pos hc]
      have : (c != sep) = false := by simp [hc]
      rw [this]
      rfl
    · rw [if_neg hc]
      have hbne : (c != sep) = true := by simp [hc]
      rw [hbne]
      cases h : splitOnSep sep cs with
      | nil => exact absurd h (splitOnSep_ne_nil sep cs)
      | cons p ps =>
        rw [h] at ih
        simp only [List.head?] at ih ⊢
        simp only [Option.some.injEq] at ih
        simp [ih]

theorem takeWhile_append_stop (p : Char → Bool) (y : List Char) (c : Char) (z : List Char)
    (hc : p c = false) : (y ++ c :: z).takeWhile p = y.takeWhile p := by
  induction y with
  | nil => simp [List.takeWhile, hc]
  | cons a ys ih =>
    simp only [List.cons_append, List.takeWhile, List.append_eq]
    cases h : p a with
    | false => rfl
    | true => rw [ih]

theorem trimSuffix_append (a b : List Char) : trimSuffix (a ++ b) b = a := by
  unfold trimSuffix
  rw [if_pos (List.isSuffixOf_iff_suffix.mpr ⟨a, rfl⟩)]
  simp

theorem extract_eq_takeWhile (l : List Char) :
    extractTimestamp l = parseInt64 (l.takeWhile (fun c => c != '-')) := by
  unfold extractTimestamp
  cases h : splitOnSep '-' l with
  | nil => exact absurd h (splitOnSep_ne_nil '-' l)
  | cons p ps =>
    have := head_splitOnSep '-' l
    rw [h] at this
    simp only [List.head?, Option.some.injEq] at this
    rw [this]

theorem extract_trimSuffix (x s : List Char) :
    extractTimestamp (trimSuffix x ('-' :: s)) = extractTimestamp x := by
  by_cases h : ('-' :: s).isSuffixOf x
  · obtain ⟨y, hy⟩ := List.isSuffixOf_iff_suffix.mp h
    rw [← hy, trimSuffix_append, extract_eq_takeWhile, extract_eq_takeWhile,
      takeWhile_append_stop _ _ _ _ (by simp)]
  · unfold trimSuffix
    rw [if_neg h]

theorem joinSep_append_single (sep : Char) (ps : List (List Char)) (b : List Char)
    (hps : ps ≠ []) : joinSep sep (ps ++ [b]) = joinSep sep ps ++ sep :: b := by
  induction ps with
  | nil => exact absurd rfl hps
  | cons r ps ih =>
    cases ps with
    | nil => simp [joinSep]
    | cons q qs =>
      have := ih (by simp)
      simp only [List.cons_append, joinSep, List.append_eq] at this ⊢
      rw [this]
      simp

/-! ## Lemmas about record parsing and well-formed build ids -/

theorem getLastD_of_ne_nil (l : List (List Char)) (h : l ≠ []) (d : List Char) :
    l.getLastD d = l.getLast h := by
  cases l with
  | nil => exact absurd rfl h
  | cons x xs => simp [List.getLastD_eq_getLast?, List.getLast?_eq_getLast]

theorem parseBuild_decomp (f : Name) (b : Build) (h : parseBuild f = some b) :
    f = b.id ++ '-' :: b.status ∧ extractTimestamp b.id = some b.ts := by
  unfold parseBuild at h
  split at h
  · exact absurd h (by simp)
  case isFalse hlen =>
    split at h
    · exact absurd h (by simp)
    case h_2 ts hts =>
      obtain rfl : b = ⟨trimSuffix f ('-' :: (splitOnSep '-' f).getLastD []),
          (splitOnSep '-' f).getLastD [], ts⟩ := by
        injection h with h2
        exact h2.symm
      have hne : splitOnSep '-' f ≠ [] := splitOnSep_ne_nil '-' f
      have hdl : (splitOnSep '-' f).dropLast ≠ [] := by
        intro hd
        have hlen2 : 2 ≤ (splitOnSep '-' f).length := by omega
        have := List.length_dropLast (splitOnSep '-' f)
        rw [hd] at this
        simp at this
        omega
      have hlast : (splitOnSep '-' f).getLastD [] = (splitOnSep '-' f).getLast hne :=
        getLastD_of_ne_nil _ hne []
      have hf : f = joinSep '-' ((splitOnSep '-' f).dropLast) ++
          '-' :: (splitOnSep '-' f).getLast hne := by
        calc f = joinSep '-' (splitOnSep '-' f) := (joinSep_splitOnSep '-' f).symm
          _ = joinSep '-' ((splitOnSep '-' f).dropLast ++ [(splitOnSep '-' f).getLast hne]) := by
            rw [List.dropLast_append_getLast hne]
          _ = joinSep '-' ((splitOnSep '-' f).dropLast) ++
              '-' :: (splitOnSep '-' f).getLast hne :=
            joinSep_append_single '-' _ _ hdl
      have htrim : trimSuffix f ('-' :: (splitOnSep '-' f).getLast hne) =
          joinSep '-' ((splitOnSep '-' f).dropLast) := by
        have h2 := trimSuffix_append (joinSep '-' ((splitOnSep '-' f).dropLast))
          ('-' :: (splitOnSep '-' f).getLast hne)
        rw [← hf] at h2
        exact h2
      refine ⟨?_, by simpa using hts⟩
      simp only [hlast, htrim]
      exact hf

theorem parseBuild_globDel (f : Name) (b : Build) (h : parseBuild f = some b) :
    globDel b.id f = true := by
  obtain ⟨hf, -⟩ := parseBuild_decomp f b h
  exact List.isPrefixOf_iff_prefix.mpr ⟨b.status, by rw [hf]; simp⟩

theorem parseBuild_status_suffix (f : Name) (b : Build) (h : parseBuild f = some b) :
    ('-' :: b.status) <:+ f := by
  obtain ⟨hf, -⟩ := parseBuild_decomp f b h
  exact ⟨b.id, hf.symm⟩

theorem seg_eq_of_sep (sep : Char) (a : List Char) :
    ∀ (b r1 r2 : List Char), (∀ c ∈ a, ¬c = sep) → (∀ c ∈ b, ¬c = sep) →
      (a ++ sep :: r1) <+: (b ++ sep :: r2) → a = b ∧ r1 <+: r2 := by
  induction a with
  | nil =>
    intro b r1 r2 _ hb hpre
    cases b with
    | nil =>
      simp only [List.nil_append] at hpre
      obtain ⟨-, h2⟩ := List.cons_prefix_cons.mp hpre
      exact ⟨rfl, h2⟩
    | cons d b2 =>
      simp only [List.nil_append, List.cons_append] at hpre
      obtain ⟨h1, -⟩ := List.cons_prefix_cons.mp hpre
      exact absurd h1.symm (hb d (by simp))
  | cons c a2 ih =>
    intro b r1 r2 ha hb hpre
    cases b with
    | nil =>
      simp only [List.cons_append, List.nil_append] at hpre
      obtain ⟨h1, -⟩ := List.cons_prefix_cons.mp hpre
      exact absurd h1 (ha c (by simp))
    | cons d b2 =>
      simp only [List.cons_append] at hpre
      obtain ⟨h1, h2⟩ := List.cons_prefix_cons.mp hpre
      obtain ⟨h3, h4⟩ := ih b2 r1 r2 (fun x hx => ha x (by simp [hx]))
        (fun x hx => hb x (by simp [hx])) h2
      exact ⟨by rw [h1, h3], h4⟩

theorem wfId_decomp (i : Name) (h : wfId i = true) :
    ∃ t p, i = t ++ '-' :: p ∧ t ≠ [] ∧ p ≠ [] ∧
      (∀ c ∈ t, c.isDigit = true) ∧ (∀ c ∈ p, c.isDigit = true) := by
  unfold wfId at h
  split at h
  case h_1 t p heq =>
    simp only [Bool.and_eq_true, Bool.not_eq_true', List.all_eq_true] at h
    obtain ⟨⟨⟨h1, h2⟩, h3⟩, h4⟩ := h
    refine ⟨t, p, ?_, ?_, ?_, h3, h4⟩
    · have hj := joinSep_splitOnSep '-' i
      rw [heq] at hj
      simp only [joinSep] at hj
      exact hj.symm
    · intro he
      rw [he] at h1
      simp at h1
    · intro he
      rw [he] at h2
      simp at h2
  case h_2 => exact absurd h (by simp)

theorem digit_ne_dash (c : Char) (h : c.isDigit = true) : ¬c = '-' := by
  intro he
  rw [he] at h
  exact absurd h (by decide)

theorem wf_no_cross (i j : Name) (hi : wfId i = true) (hj : wfId j = true)
    (hne : i ≠ j) (s : List Char) : ¬(i ++ ['-']) <+: (j ++ '-' :: s) := by
  obtain ⟨t1, p1, hieq, ht1, hp1, hd1, he1⟩ := wfId_decomp i hi
  obtain ⟨t2, p2, hjeq, ht2, hp2, hd2, he2⟩ := wfId_decomp j hj
  intro hpre
  have h1 : i ++ ['-'] = t1 ++ '-' :: (p1 ++ ['-']) := by rw [hieq]; simp
  have h2 : j ++ '-' :: s = t2 ++ '-' :: (p2 ++ '-' :: s) := by rw [hjeq]; simp
  rw [h1, h2] at hpre
  obtain ⟨hteq, hrest⟩ := seg_eq_of_sep '-' t1 t2 (p1 ++ ['-']) (p2 ++ '-' :: s)
    (fun c hc => digit_ne_dash c (hd1 c hc)) (fun c hc => digit_ne_dash c (hd2 c hc)) hpre
  have hrest2 : (p1 ++ '-' :: ([] : List Char)) <+: (p2 ++ '-' :: s) := by
    simpa using hrest
  obtain ⟨hpeq, -⟩ := seg_eq_of_sep '-' p1 p2 [] s
    (fun c hc => digit_ne_dash c (he1 c hc)) (fun c hc => digit_ne_dash c (he2 c hc)) hrest2
  exact hne (by rw [hieq, hjeq, hteq, hpeq])

theorem wf_globDel_false (i j : Name) (hi : wfId i = true) (hj : wfId j = true)
    (hne : i ≠ j) (s : Name) : globDel i (j ++ '-' :: s) = false := by
  cases hb : (i ++ ['-']).isPrefixOf (j ++ '-' :: s) with
  | false => unfold globDel; rw [hb]
  | true =>
    exact absurd (List.isPrefixOf_iff_prefix.mp hb) (wf_no_cross i j hi hj hne s)

theorem wfId_head_digit (i : Name) (hi : wfId i = true) :
    ∃ c cs, i = c :: cs ∧ c.isDigit = true := by
  obtain ⟨t, p, hieq, ht, -, hd, -⟩ := wfId_decomp i hi
  cases t with
  | nil => exact absurd rfl ht
  | cons c cs => exact ⟨c, cs ++ '-' :: p, by rw [hieq]; simp, hd c (by simp)⟩

theorem wf_globDel_ptr (i : Name) (hi : wfId i = true) : globDel i ptrName = false := by
  obtain ⟨c, cs, hic, hd⟩ := wfId_head_digit i hi
  cases hb : (i ++ ['-']).isPrefixOf ptrName with
  | false => unfold globDel; rw [hb]
  | true =>
    have hpre := List.isPrefixOf_iff_prefix.mp hb
    rw [hic] at hpre
    simp only [List.cons_append, ptrName] at hpre
    obtain ⟨h1, -⟩ := List.cons_prefix_cons.mp hpre
    rw [h1] at hd
    exact absurd hd (by decide)

theorem statusFileName_ne_ptr (i : Name) (hi : wfId i = true) (st : BuildStatus) :
    statusFileName i st ≠ ptrName := by
  obtain ⟨c, cs, hic, hd⟩ := wfId_head_digit i hi
  intro he
  unfold statusFileName at he
  rw [hic] at he
  simp only [List.cons_append, ptrName] at he
  injection he with h1 h2
  rw [h1] at hd
  exact absurd hd (by decide)

theorem statusFileName_ne_cross (i j : Name) (hi : wfId i = true) (hj : wfId j = true)
    (hne : i ≠ j) (st : BuildStatus) (s : Name) :
    statusFileName i st ≠ j ++ '-' :: s := by
  intro he
  apply wf_no_cross i j hi hj hne s
  rw [← he]
  exact ⟨statusChars st, by simp [statusFileName]⟩

theorem globDel_statusFileName (i : Name) (st : BuildStatus) :
    globDel i (statusFileName i st) = true :=
  List.isPrefixOf_iff_prefix.mpr ⟨statusChars st, by simp [statusFileName]⟩

/-! ## The cleanup sweep refines the record-level deletion predicate -/

theorem getLast?_append_right (l1 l2 : List Char) (h : l2 ≠ []) :
    (l1 ++ l2).getLast? = l2.getLast? := by
  have hs : l2.getLast?.isSome := List.getLast?_isSome.mpr h
  rw [List.getLast?_append, Option.or_of_isSome hs]

theorem statusChars_no_sep (st : BuildStatus) : ∀ c ∈ statusChars st, ¬c = '-' := by
  cases st <;> decide

theorem parseBuild_concat_status (x : Name) (st : BuildStatus) :
    parseBuild (x ++ '-' :: statusChars st) =
      match extractTimestamp x with
      | none => none
      | some ts => some ⟨x, statusChars st, ts⟩ := by
  have hsp : splitOnSep '-' (x ++ '-' :: statusChars st) =
      splitOnSep '-' x ++ [statusChars st] := by
    rw [splitOnSep_append, splitOnSep_no_sep '-' (statusChars st) (statusChars_no_sep st)]
  have hxlen : 0 < (splitOnSep '-' x).length :=
    List.length_pos.mpr (splitOnSep_ne_nil '-' x)
  unfold parseBuild
  rw [hsp]
  rw [if_neg (by simp; omega)]
  have hlast : (splitOnSep '-' x ++ [statusChars st]).getLastD ([] : List Char) =
      statusChars st := by simp
  rw [hlast, trimSuffix_append x ('-' :: statusChars st)]

theorem cleanupDeletes_eq_superseded (T : Int) (f : Name) :
    cleanupDeletes T f = supersededSpec T f := by
  by_cases hfa : failedSuf.isSuffixOf f
  · obtain ⟨x, hx⟩ := List.isSuffixOf_iff_suffix.mp hfa
    subst hx
    unfold cleanupDeletes supersededSpec
    rw [if_pos (by unfold hasSuffix; rw [hfa]; simp)]
    rw [show trimSuffix (x ++ failedSuf) failedSuf = x from trimSuffix_append x failedSuf]
    rw [show ∀ y : Name, trimSuffix y abortedSuf = trimSuffix y ('-' :: statusChars .aborted)
      from fun y => rfl]
    rw [extract_trimSuffix x (statusChars .aborted)]
    rw [show (x ++ failedSuf : Name) = x ++ '-' :: statusChars .failed from rfl]
    rw [parseBuild_concat_status x .failed]
    cases hex : extractTimestamp x with
    | none => rfl
    | some ts => simp
  · by_cases hab : abortedSuf.isSuffixOf f
    · obtain ⟨x, hx⟩ := List.isSuffixOf_iff_suffix.mp hab
      subst hx
      unfold cleanupDeletes supersededSpec
      rw [if_pos (by unfold hasSuffix; rw [hab]; simp)]
      have htr1 : trimSuffix (x ++ abortedSuf) failedSuf = x ++ abortedSuf := by
        unfold trimSuffix
        rw [if_neg hfa]
      rw [htr1]
      rw [show trimSuffix (x ++ abortedSuf) abortedSuf = x from
        trimSuffix_append x abortedSuf]
      rw [show (x ++ abortedSuf : Name) = x ++ '-' :: statusChars .aborted from rfl]
      rw [parseBuild_concat_status x .aborted]
      cases hex : extractTimestamp x with
      | none => rfl
      | some ts => simp
    · unfold cleanupDeletes supersededSpec
      rw [if_neg (by unfold hasSuffix; simp only [Bool.or_eq_true]; rintro (h | h)
        <;> [exact hfa h; exact hab h])]
      cases hp : parseBuild f with
      | none => rfl
      | some b =>
        have hsuf := parseBuild_status_suffix f b hp
        have h1 : (b.status == statusChars .failed) = false := by
          cases hbe : b.status == statusChars .failed with
          | false => rfl
          | true =>
            have hq : b.status = statusChars .failed := eq_of_beq hbe
            rw [hq] at hsuf
            exact absurd (List.isSuffixOf_iff_suffix.mpr hsuf) hfa
        have h2 : (b.status == statusChars .aborted) = false := by
          cases hbe : b.status == statusChars .aborted with
          | false => rfl
          | true =>
            have hq : b.status = statusChars .aborted := eq_of_beq hbe
            rw [hq] at hsuf
            exact absurd (List.isSuffixOf_iff_suffix.mpr hsuf) hab
        simp [h1, h2]

/-! ## The at-most-one-record invariant of the ledger -/

theorem filter_SetStatus_same (i : Name) (st : BuildStatus) (files : List Name) :
    (SetStatus i st files).filter (fun n => globDel i n) = [statusFileName i st] := by
  have h0 : (files.filter (fun n => !globDel i n)).filter (fun n => globDel i n) = [] := by
    rw [List.filter_eq_nil_iff]
    intro a ha
    have h1 := (List.mem_filter.mp ha).2
    simp only [Bool.not_eq_true'] at h1
    simp [h1]
  unfold SetStatus
  rw [List.filter_cons]
  simp [globDel_statusFileName, h0]

theorem count_le_of_sub (j : Name) (files : List Name) (p : Name → Bool) :
    ((files.filter p).filter (fun n => globDel j n)).length ≤
      (files.filter (fun n => globDel j n)).length :=
  ((List.filter_sublist files).filter (fun n => globDel j n)).length_le

theorem ledger_step_inv (files : List Name) (op : LedgerOp) (hop : wfId op.buildID = true)
    (hinv : ∀ j, wfId j = true → (files.filter (fun n => globDel j n)).length ≤ 1) :
    ∀ j, wfId j = true →
      ((applyLedgerOp files op).filter (fun n => globDel j n)).length ≤ 1 := by
  intro j hj
  cases op with
  | set i st =>
    by_cases hij : j = i
    · subst hij
      show ((SetStatus j st files).filter (fun n => globDel j n)).length ≤ 1
      rw [filter_SetStatus_same]
      simp
    · have hfalse : globDel j (statusFileName i st) = false :=
        wf_globDel_false j i hj hop hij (statusChars st)
      show ((SetStatus i st files).filter (fun n => globDel j n)).length ≤ 1
      unfold SetStatus
      rw [List.filter_cons]
      rw [hfalse]
      simp only [if_false, Bool.false_eq_true]
      exact le_trans (count_le_of_sub j files _) (hinv j hj)
  | clear i =>
    show ((ClearBuild i files).filter (fun n => globDel j n)).length ≤ 1
    unfold ClearBuild
    exact le_trans (count_le_of_sub j files _) (hinv j hj)

theorem ledger_inv (ops : List LedgerOp) (hops : ∀ op ∈ ops, wfId op.buildID = true) :
    ∀ files, (∀ j, wfId j = true → (files.filter (fun n => globDel j n)).length ≤ 1) →
      ∀ j, wfId j = true →
        ((applyLedgerOps ops files).filter (fun n => globDel j n)).length ≤ 1 := by
  induction ops with
  | nil => intro files hinv j hj; exact hinv j hj
  | cons op ops ih =>
    intro files hinv j hj
    exact ih (fun o ho => hops o (by simp [ho])) (applyLedgerOp files op)
      (ledger_step_inv files op (hops op (by simp)) hinv) j hj

/-! ## Lemmas about the orchestration trace -/

theorem runRules_all_ok (outcome : BuildRule → RuleOutcome) (buildID : Name)
    (rs : List BuildRule) (h : ∀ r ∈ rs, outcome r = .ok) :
    runRules outcome buildID rs = (rs.map Ev.runRule, true) := by
  induction rs with
  | nil => rfl
  | cons r rs ih =>
    have hr := h r (by simp)
    simp [runRules, hr, ih (fun x hx => h x (by simp [hx]))]

theorem runRules_no_app (outcome : BuildRule → RuleOutcome) (buildID : Name)
    (rs : List BuildRule) :
    Ev.stopApp ∉ (runRules outcome buildID rs).1 ∧
      Ev.startApp ∉ (runRules outcome buildID rs).1 := by
  induction rs with
  | nil => simp [runRules]
  | cons r rs ih =>
    unfold runRules
    cases outcome r with
    | ok => simpa using ih
    | fail => simp
    | abortedExt => simp

theorem runRules_snd_iff (outcome : BuildRule → RuleOutcome) (buildID : Name)
    (rs : List BuildRule) :
    (runRules outcome buildID rs).2 = true ↔ ∀ r ∈ rs, outcome r = .ok := by
  induction rs with
  | nil => simp [runRules]
  | cons r rs ih =>
    unfold runRules
    cases h : outcome r with
    | ok => simp [h, ih]
    | fail =>
      simp only [Bool.false_eq_true, false_iff]
      intro hall
      have h2 := hall r (List.mem_cons_self r rs)
      rw [h] at h2
      exact absurd h2 (by simp)
    | abortedExt =>
      simp only [Bool.false_eq_true, false_iff]
      intro hall
      have h2 := hall r (List.mem_cons_self r rs)
      rw [h] at h2
      exact absurd h2 (by simp)

theorem runRules_fst_all_ok (outcome : BuildRule → RuleOutcome) (buildID : Name)
    (rs : List BuildRule) (h : ∀ r ∈ rs, outcome r = .ok) :
    (runRules outcome buildID rs).1 = rs.map Ev.runRule := by
  rw [runRules_all_ok outcome buildID rs h]

theorem runTrace_append (s : MState) (e1 e2 : List Ev) :
    runTrace s (e1 ++ e2) = runTrace (runTrace s e1) e2 :=
  List.foldl_append stepEv s e1 e2

theorem runTrace_map_runRule (s : MState) (rs : List BuildRule) :
    runTrace s (rs.map Ev.runRule) = s := by
  induction rs generalizing s with
  | nil => rfl
  | cons r rs ih => exact ih s

theorem appRunning_false_pres (evs : List Ev) (h : Ev.startApp ∉ evs) :
    ∀ s : MState, s.appRunning = false → (runTrace s evs).appRunning = false := by
  induction evs with
  | nil => intro s hs; exact hs
  | cons e evs ih =>
    intro s hs
    have he : e ≠ Ev.startApp := fun heq => h (by simp [heq])
    apply ih (fun hm => h (by simp [hm]))
    cases e with
    | startApp => exact absurd rfl he
    | stopApp => simp [stepEv]
    | newBuild i => simpa [stepEv] using hs
    | setStatus i st => simpa [stepEv] using hs
    | clearBuild i => simpa [stepEv] using hs
    | cleanupOld i => simpa [stepEv] using hs
    | runRule r => simpa [stepEv] using hs

theorem executeBuild_final_files (env : OrchEnv) (changedFiles : Option (List Name))
    (buildID : Name) (files0 : List Name) (app0 : Bool)
    (hok : ∀ r ∈ determineRulesToRun env.rules (changedFiles.getD []), env.outcome r = .ok) :
    ∃ X, (runTrace ⟨files0, app0⟩ (executeBuild env changedFiles buildID)).files =
      ClearBuild buildID X := by
  unfold executeBuild
  by_cases hempty : (determineRulesToRun env.rules (changedFiles.getD [])).isEmpty
  · rw [if_pos hempty]
    rcases changedFiles with _ | cf
    · exact ⟨_, rfl⟩
    · exact ⟨_, rfl⟩
  · rw [if_neg hempty]
    rw [runRules_fst_all_ok env.outcome buildID _ hok,
      if_pos ((runRules_snd_iff env.outcome buildID _).mpr hok)]
    by_cases hcmd : env.runCmd.isEmpty
    · rw [if_pos hcmd]
      rcases changedFiles with _ | cf
      · show ∃ X, (runTrace ⟨files0, app0⟩
            ([Ev.newBuild buildID, Ev.setStatus buildID .building] ++
              ((determineRulesToRun env.rules []).map Ev.runRule ++
                [Ev.cleanupOld buildID, Ev.clearBuild buildID]))).files =
            ClearBuild buildID X
        rw [runTrace_append, runTrace_append, runTrace_map_runRule]
        exact ⟨_, rfl⟩
      · show ∃ X, (runTrace ⟨files0, app0⟩
            ([Ev.stopApp, Ev.newBuild buildID, Ev.setStatus buildID .building] ++
              ((determineRulesToRun env.rules cf).map Ev.runRule ++
                [Ev.cleanupOld buildID, Ev.clearBuild buildID]))).files =
            ClearBuild buildID X
        rw [runTrace_append, runTrace_append, runTrace_map_runRule]
        exact ⟨_, rfl⟩
    · rw [if_neg hcmd]
      rcases changedFiles with _ | cf
      · show ∃ X, (runTrace ⟨files0, app0⟩
            ([Ev.newBuild buildID, Ev.setStatus buildID .building] ++
              ((determineRulesToRun env.rules []).map Ev.runRule ++
                [Ev.cleanupOld buildID, Ev.clearBuild buildID, Ev.startApp]))).files =
            ClearBuild buildID X
        rw [runTrace_append, runTrace_append, runTrace_map_runRule]
        exact ⟨_, rfl⟩
      · show ∃ X, (runTrace ⟨files0, app0⟩
            ([Ev.stopApp, Ev.newBuild buildID, Ev.setStatus buildID .building] ++
              ((determineRulesToRun env.rules cf).map Ev.runRule ++
                [Ev.cleanupOld buildID, Ev.clearBuild buildID, Ev.startApp]))).files =
            ClearBuild buildID X
        rw [runTrace_append, runTrace_append, runTrace_map_runRule]
        exact ⟨_, rfl⟩

/-! ## Claim theorems -/

/-- C1: for every sequence of SetStatus and ClearBuild calls on the
ledger with well-formed build ids, starting from an empty status
directory, at most one status file matching a given well-formed
BuildID's removal glob exists at any observation point — SetStatus
first removes every record of the id, then writes the single new file,
so the ledger never holds two differing status files for one id. -/
theorem c1_at_most_one_record (ops : List LedgerOp)
    (hops : ∀ op ∈ ops, wfId op.buildID = true) (i : Name) (hi : wfId i = true) :
    ((applyLedgerOps ops []).filter (fun n => globDel i n)).length ≤ 1 :=
  ledger_inv ops hops [] (fun _ _ => by simp) i hi

/-- Witness for C1 at a concrete operation sequence that overwrites one
id twice and clears another. -/
theorem c1_witness :
    (∀ op ∈ [LedgerOp.set wId1 .building, LedgerOp.set wId1 .failed,
        LedgerOp.set wId2 .building, LedgerOp.clear wId2],
      wfId op.buildID = true) ∧
    ((applyLedgerOps [LedgerOp.set wId1 .building, LedgerOp.set wId1 .failed,
        LedgerOp.set wId2 .building, LedgerOp.clear wId2] []).filter
      (fun n => globDel wId1 n)).length ≤ 1 :=
  ⟨by decide, c1_at_most_one_record _ (by decide) wId1 (by decide)⟩

/-- C2: after a fully successful orchestration run (every selected
rule's command exits zero), executeBuild sweeps superseded records and
clears the build's own record, so GetBuilds reports no record for that
BuildID — success is represented by the absence of a status file. -/
theorem c2_success_absence (env : OrchEnv) (changedFiles : Option (List Name))
    (buildID : Name) (files0 : List Name) (app0 : Bool)
    (hok : ∀ r ∈ determineRulesToRun env.rules (changedFiles.getD []), env.outcome r = .ok) :
    ∀ b ∈ GetBuilds (runTrace ⟨files0, app0⟩ (executeBuild env changedFiles buildID)).files,
      b.id ≠ buildID := by
  obtain ⟨X, hX⟩ := executeBuild_final_files env changedFiles buildID files0 app0 hok
  intro b hb heq
  rw [hX] at hb
  simp only [GetBuilds] at hb
  obtain ⟨f, hf_mem, hf_parse⟩ := List.mem_filterMap.mp hb
  have hglob : globDel b.id f = true := parseBuild_globDel f b hf_parse
  unfold ClearBuild at hf_mem
  have h2 := (List.mem_filter.mp hf_mem).2
  rw [heq] at hglob
  rw [hglob] at h2
  simp at h2

/-- Witness for C2: one changed file selecting one all-ok rule; the
final directory holds no record for the build id. -/
theorem c2_witness :
    (∀ r ∈ determineRulesToRun wEnv.rules ((some [wPathA]).getD []), wEnv.outcome r = .ok) ∧
    ∀ b ∈ GetBuilds (runTrace ⟨[], false⟩
        (executeBuild wEnv (some [wPathA]) wId1)).files, b.id ≠ wId1 :=
  ⟨by decide, c2_success_absence wEnv (some [wPathA]) wId1 [] false (by decide)⟩

/-- C3 counterexample: with a trigger already pending, dispatching a new
trigger does not replace it — the send falls through to the default
branch and drops the new message, so the orchestrator receives the
older pending ChangeSet, not the newest. -/
theorem c3_counterexample :
    triggerBuild [msgA] msgB ≠ [msgB] ∧
      (recvTrigger (triggerBuild [msgA] msgB)).1 = some msgA := by
  constructor
  · decide
  · rfl

/-- C3 amended: the trigger channel has capacity one and the send is
non-blocking, so at most one trigger is ever pending; but when a
trigger is pending, a newly dispatched trigger is dropped and the
pending one retained, so the orchestrator receives the oldest
undelivered ChangeSet rather than the newest. -/
theorem c3_amended (queue : List TriggerMsg) (msg : TriggerMsg) (hq : queue.length ≤ 1) :
    (triggerBuild queue msg).length ≤ 1 ∧
      (queue = [] → triggerBuild queue msg = [msg]) ∧
      ∀ pending, queue = [pending] →
        triggerBuild queue msg = [pending] ∧
          (recvTrigger (triggerBuild queue msg)).1 = some pending := by
  refine ⟨?_, ?_, ?_⟩
  · unfold triggerBuild
    split
    case isTrue h =>
      have h0 : queue.length = 0 := by omega
      simp [List.length_append, h0]
    case isFalse h => exact hq
  · intro h
    subst h
    rfl
  · intro pending h
    subst h
    exact ⟨rfl, rfl⟩

/-- Witness for C3 amended at a concrete one-element queue. -/
theorem c3_witness :
    ([msgA] : List TriggerMsg).length ≤ 1 ∧ triggerBuild [msgA] msgB = [msgA] :=
  ⟨by decide, ((c3_amended [msgA] msgB (by decide)).2.2 msgA rfl).1⟩

/-- C4: for a current build id whose timestamp parses to T, the cleanup
sweep deletes exactly the persisted records with status failed or
aborted whose timestamp is at most T — records with larger timestamps,
records whose timestamp does not parse, and everything else are left in
place (the code-side suffix test with its double trim is proved equal
to the record-level predicate). -/
theorem c4_cleanup_superseded (currentBuildID : Name) (T : Int) (files : List Name)
    (h : extractTimestamp currentBuildID = some T) :
    CleanupOldFailed currentBuildID files = files.filter (fun f => !supersededSpec T f) := by
  unfold CleanupOldFailed
  rw [h]
  apply List.filter_congr
  intro f _
  simp [cleanupDeletes_eq_superseded]

/-- Witness for C4: a directory holding an older failed record, a newer
aborted record and the pointer file, swept for id 100-5. -/
theorem c4_witness :
    extractTimestamp wId1 = some 100 ∧
      CleanupOldFailed wId1
          [statusFileName wId0 .failed, statusFileName wId2 .aborted, ptrName] =
        [statusFileName wId0 .failed, statusFileName wId2 .aborted, ptrName].filter
          (fun f => !supersededSpec 100 f) :=
  ⟨by decide, c4_cleanup_superseded wId1 100 _ (by decide)⟩

/-- C5: with an empty ChangeSet the selected rules are exactly the
configured list in declared order; otherwise a rule is selected iff
some changed path matches some of its watch patterns (base-name glob
match or recursive-wildcard suffix match, as matchesPattern defines),
and the selection is a sublist of the declared order containing each
rule at most once. -/
theorem c5_rule_selection (rules : List BuildRule) (changedFiles : List Name) :
    determineRulesToRun rules [] = rules ∧
      (changedFiles ≠ [] →
        List.Sublist (determineRulesToRun rules changedFiles) rules ∧
          (∀ r, r ∈ determineRulesToRun rules changedFiles ↔
            r ∈ rules ∧ ∃ f ∈ changedFiles, ∃ pat ∈ r.watch, matchesPattern f pat = true) ∧
          (rules.Nodup → (determineRulesToRun rules changedFiles).Nodup)) := by
  constructor
  · rfl
  · intro hne
    have hlen : ¬changedFiles.length = 0 := by
      simpa [List.length_eq_zero] using hne
    unfold determineRulesToRun
    rw [if_neg hlen]
    refine ⟨List.filter_sublist rules, ?_, ?_⟩
    · intro r
      rw [List.mem_filter]
      unfold ruleMatched
      simp [List.any_eq_true]
    · intro hnd
      exact hnd.filter _

/-- Witness for C5: a changed .a path selects the rule watching *.a. -/
theorem c5_witness :
    ([wPathA] : List Name) ≠ [] ∧
      (wRuleA ∈ determineRulesToRun [wRuleA, wRuleB] [wPathA] ↔
        wRuleA ∈ [wRuleA, wRuleB] ∧ ∃ f ∈ [wPathA], ∃ pat ∈ wRuleA.watch,
          matchesPattern f pat = true) :=
  ⟨by decide, ((c5_rule_selection [wRuleA, wRuleB] [wPathA]).2 (by decide)).2.1 wRuleA⟩

/-- C6 counterexample: Kill on a handle whose process has already
exited and been reaped does not return success — Getpgid fails with
ESRCH, the fallback Process.Kill reports the process-already-finished
error, and Kill returns that error (the caller in proxy.go filters
exactly this error string). -/
theorem c6_counterexample :
    Kill .exited .ok ≠ none ∧ Kill .exited .ok = some .processDone :=
  ⟨by decide, rfl⟩

/-- C6 amended: Kill on a handle where no command was ever started
returns success, and ESRCH in response to the graceful signal sent to a
live process group is treated as success, not an error; but Kill on a
handle whose process already exited and was reaped returns the
process-already-finished error from the Process.Kill fallback rather
than success. -/
theorem c6_amended (pgid : Int) (r : SigRes) :
    Kill .notStarted r = none ∧ Kill (.running pgid) .esrch = none ∧
      Kill .exited r = some .processDone := by
  refine ⟨rfl, rfl, ?_⟩
  cases r <;> rfl

/-- C7 counterexample: with no sink, streamOutput does not read the
stream to end-of-stream — it consumes zero of the one available line. -/
theorem c7_counterexample :
    (streamOutput [['x']] false).consumed ≠ ([['x']] : List Name).length ∧
      streamOutput [['x']] false = ⟨[], 0⟩ :=
  ⟨by decide, rfl⟩

theorem scanAll_all (stream : List Name) : scanAll stream = ⟨stream, stream.length⟩ := by
  induction stream with
  | nil => rfl
  | cons l ls ih => simp [scanAll, ih]

/-- C7 amended: with no sink streamOutput returns immediately, reading
nothing and delivering nothing — the stream is left unread rather than
drained; with a sink it consumes the whole stream and delivers every
line. -/
theorem c7_amended (stream : List Name) :
    streamOutput stream false = ⟨[], 0⟩ ∧
      streamOutput stream true = ⟨stream, stream.length⟩ :=
  ⟨rfl, by simp [streamOutput, scanAll_all]⟩

/-- C9: SetStatus and ClearBuild touch only the given id's records —
for any other well-formed id every record-shaped file is unchanged, and
the current-build-id pointer file is unchanged, because the removal
glob of one well-formed id cannot match another id's records or the
pointer name. -/
theorem c9_frame (i j : Name) (hi : wfId i = true) (hj : wfId j = true) (hne : i ≠ j)
    (st : BuildStatus) (files : List Name) :
    (∀ s : Name, (j ++ '-' :: s) ∈ SetStatus i st files ↔ (j ++ '-' :: s) ∈ files) ∧
      (∀ s : Name, (j ++ '-' :: s) ∈ ClearBuild i files ↔ (j ++ '-' :: s) ∈ files) ∧
      (ptrName ∈ SetStatus i st files ↔ ptrName ∈ files) ∧
      (ptrName ∈ ClearBuild i files ↔ ptrName ∈ files) := by
  have hg : ∀ s : Name, globDel i (j ++ '-' :: s) = false :=
    fun s => wf_globDel_false i j hi hj hne s
  have hp : globDel i ptrName = false := wf_globDel_ptr i hi
  refine ⟨?_, ?_, ?_, ?_⟩
  · intro s
    unfold SetStatus
    rw [List.mem_cons]
    constructor
    · rintro (h | h)
      · exact absurd h.symm (statusFileName_ne_cross i j hi hj hne st s)
      · exact (List.mem_filter.mp h).1
    · intro h
      right
      rw [List.mem_filter]
      exact ⟨h, by rw [hg s]; rfl⟩
  · intro s
    unfold ClearBuild
    rw [List.mem_filter]
    exact ⟨fun h => h.1, fun h => ⟨h, by rw [hg s]; rfl⟩⟩
  · unfold SetStatus
    rw [List.mem_cons]
    constructor
    · rintro (h | h)
      · exact absurd h.symm (statusFileName_ne_ptr i hi st)
      · exact (List.mem_filter.mp h).1
    · intro h
      right
      rw [List.mem_filter]
      exact ⟨h, by rw [hp]; rfl⟩
  · unfold ClearBuild
    rw [List.mem_filter]
    exact ⟨fun h => h.1, fun h => ⟨h, by rw [hp]; rfl⟩⟩

/-- Witness for C9: writing a record for 100-5 leaves the pointer file
in place. -/
theorem c9_witness :
    wfId wId1 = true ∧ wfId wId2 = true ∧ wId1 ≠ wId2 ∧
      (ptrName ∈ SetStatus wId1 .building [ptrName] ↔ ptrName ∈ [ptrName]) :=
  ⟨by decide, by decide, by decide,
    (c9_frame wId1 wId2 (by decide) (by decide) (by decide) .building [ptrName]).2.2.1⟩

/-- C10: the cleanup sweep deletes only files carrying the failed or
aborted suffix — a record with status building survives it regardless
of its timestamp, and so does the current-build-id pointer file. -/
theorem c10_building_preserved (currentBuildID : Name) (files : List Name) (f : Name)
    (hmem : f ∈ files)
    (hkind : (∃ b, parseBuild f = some b ∧ b.status = statusChars .building) ∨ f = ptrName) :
    f ∈ CleanupOldFailed currentBuildID files := by
  unfold CleanupOldFailed
  cases hex : extractTimestamp currentBuildID with
  | none => exact hmem
  | some t =>
    rw [List.mem_filter]
    refine ⟨hmem, ?_⟩
    suffices hdel : cleanupDeletes t f = false by rw [hdel]; rfl
    rcases hkind with ⟨b, hp, hst⟩ | rfl
    · have hsuf := parseBuild_status_suffix f b hp
      rw [hst] at hsuf
      obtain ⟨y, hy⟩ := hsuf
      have hga : f.getLast? = some 'g' := by
        rw [← hy, getLast?_append_right y _ (by simp)]
        rfl
      have hf1 : hasSuffix f failedSuf = false := by
        cases hb : hasSuffix f failedSuf with
        | false => rfl
        | true =>
          unfold hasSuffix at hb
          obtain ⟨z, hz⟩ := List.isSuffixOf_iff_suffix.mp hb
          have h1 : f.getLast? = some 'd' := by
            rw [← hz, getLast?_append_right z _ (by simp [failedSuf])]
            rfl
          rw [hga] at h1
          exact absurd h1 (by decide)
      have hf2 : hasSuffix f abortedSuf = false := by
        cases hb : hasSuffix f abortedSuf with
        | false => rfl
        | true =>
          unfold hasSuffix at hb
          obtain ⟨z, hz⟩ := List.isSuffixOf_iff_suffix.mp hb
          have h1 : f.getLast? = some 'd' := by
            rw [← hz, getLast?_append_right z _ (by simp [abortedSuf])]
            rfl
          rw [hga] at h1
          exact absurd h1 (by decide)
      unfold cleanupDeletes
      rw [hf1, hf2]
      simp
    · unfold cleanupDeletes
      rw [if_neg (by decide)]

/-- Witness for C10: a building record for 99-5 survives the sweep for
100-5 although its timestamp is older. -/
theorem c10_witness :
    statusFileName wId0 .building ∈ [statusFileName wId0 .building] ∧
      statusFileName wId0 .building ∈ CleanupOldFailed wId1 [statusFileName wId0 .building] :=
  ⟨by decide,
    c10_building_preserved wId1 [statusFileName wId0 .building] _ (by decide)
      (Or.inl ⟨⟨wId0, statusChars .building, 99⟩, by decide, rfl⟩)⟩

/-- C8: for a non-startup trigger the application stop is the first
event of the cycle — before the BuildID allocation and before every
rule run — and it is skipped exactly for the startup trigger; the
application start, when present, is the final event, and it occurs iff
rules were selected, every selected rule's command exited zero, and a
run command is configured; a failed, aborted, or no-op build leaves the
application stopped. -/
theorem c8_stop_start_order (env : OrchEnv) (changedFiles : Option (List Name))
    (buildID : Name) (files0 : List Name) (app0 : Bool) :
    (changedFiles = none → Ev.stopApp ∉ executeBuild env changedFiles buildID) ∧
      (changedFiles ≠ none → ∃ rest, executeBuild env changedFiles buildID =
        Ev.stopApp :: rest ∧ Ev.stopApp ∉ rest) ∧
      (∃ body, Ev.startApp ∉ body ∧
        (executeBuild env changedFiles buildID = body ∨
          executeBuild env changedFiles buildID = body ++ [Ev.startApp])) ∧
      (Ev.startApp ∈ executeBuild env changedFiles buildID ↔
        determineRulesToRun env.rules (changedFiles.getD []) ≠ [] ∧
          (∀ r ∈ determineRulesToRun env.rules (changedFiles.getD []),
            env.outcome r = .ok) ∧ env.runCmd ≠ []) ∧
      (changedFiles ≠ none →
        (determineRulesToRun env.rules (changedFiles.getD []) = [] ∨
          ∃ r ∈ determineRulesToRun env.rules (changedFiles.getD []),
            env.outcome r ≠ .ok) →
        (runTrace ⟨files0, app0⟩ (executeBuild env changedFiles buildID)).appRunning =
          false) := by
  obtain ⟨B, hTB, hB_noStop, hB_body, hB_iff⟩ : ∃ B,
      executeBuild env changedFiles buildID =
        (match changedFiles with | some _ => [Ev.stopApp] | none => []) ++
          Ev.newBuild buildID :: Ev.setStatus buildID .building :: B ∧
      Ev.stopApp ∉ B ∧
      (∃ bodyB, Ev.startApp ∉ bodyB ∧ (B = bodyB ∨ B = bodyB ++ [Ev.startApp])) ∧
      (Ev.startApp ∈ B ↔
        determineRulesToRun env.rules (changedFiles.getD []) ≠ [] ∧
          (∀ r ∈ determineRulesToRun env.rules (changedFiles.getD []),
            env.outcome r = .ok) ∧ env.runCmd ≠ []) := by
    refine ⟨_, rfl, ?_, ?_, ?_⟩
    · by_cases hempty : (determineRulesToRun env.rules (changedFiles.getD [])).isEmpty
      · rw [if_pos hempty]
        simp
      · rw [if_neg hempty]
        intro hmem
        rcases List.mem_append.mp hmem with h | h
        · exact (runRules_no_app env.outcome buildID _).1 h
        · split at h
          · simp only [List.mem_cons] at h
            rcases h with h | h | h
            · simp at h
            · simp at h
            · split at h <;> simp at h
          · simp at h
    · by_cases hempty : (determineRulesToRun env.rules (changedFiles.getD [])).isEmpty
      · rw [if_pos hempty]
        exact ⟨[Ev.clearBuild buildID], by simp, Or.inl rfl⟩
      · rw [if_neg hempty]
        by_cases hr2 : (runRules env.outcome buildID
            (determineRulesToRun env.rules (changedFiles.getD []))).2 = true
        · rw [if_pos hr2]
          by_cases hcmd : env.runCmd.isEmpty
          · rw [if_pos hcmd]
            refine ⟨_, ?_, Or.inl rfl⟩
            intro hmem
            rcases List.mem_append.mp hmem with h | h
            · exact (runRules_no_app env.outcome buildID _).2 h
            · simp at h
          · rw [if_neg hcmd]
            refine ⟨(runRules env.outcome buildID
                (determineRulesToRun env.rules (changedFiles.getD []))).1 ++
                [Ev.cleanupOld buildID, Ev.clearBuild buildID], ?_, Or.inr ?_⟩
            · intro hmem
              rcases List.mem_append.mp hmem with h | h
              · exact (runRules_no_app env.outcome buildID _).2 h
              · simp at h
            · simp
        · rw [if_neg hr2]
          refine ⟨_, ?_, Or.inl rfl⟩
          intro hmem
          rcases List.mem_append.mp hmem with h | h
          · exact (runRules_no_app env.outcome buildID _).2 h
          · simp at h
    · by_cases hempty : (determineRulesToRun env.rules (changedFiles.getD [])).isEmpty
      · rw [if_pos hempty]
        constructor
        · intro h
          simp at h
        · rintro ⟨hne2, -, -⟩
          exact absurd (List.isEmpty_iff.mp hempty) hne2
      · rw [if_neg hempty]
        have hselne : determineRulesToRun env.rules (changedFiles.getD []) ≠ [] := by
          intro h
          rw [h] at hempty
          simp at hempty
        by_cases hr2 : (runRules env.outcome buildID
            (determineRulesToRun env.rules (changedFiles.getD []))).2 = true
        · rw [if_pos hr2]
          have hall := (runRules_snd_iff env.outcome buildID _).mp hr2
          by_cases hcmd : env.runCmd.isEmpty
          · rw [if_pos hcmd]
            constructor
            · intro hmem
              rcases List.mem_append.mp hmem with h | h
              · exact absurd h (runRules_no_app env.outcome buildID _).2
              · simp at h
            · rintro ⟨-, -, hcmd2⟩
              exact absurd (List.isEmpty_iff.mp hcmd) hcmd2
          · rw [if_neg hcmd]
            constructor
            · intro _
              refine ⟨hselne, hall, ?_⟩
              intro h
              exact hcmd (by rw [h]; rfl)
            · intro _
              apply List.mem_append.mpr
              right
              simp
        · rw [if_neg hr2]
          constructor
          · intro hmem
            rcases List.mem_append.mp hmem with h | h
            · exact absurd h (runRules_no_app env.outcome buildID _).2
            · simp at h
          · rintro ⟨-, hall, -⟩
            exact absurd ((runRules_snd_iff env.outcome buildID _).mpr hall) hr2
  refine ⟨?_, ?_, ?_, ?_, ?_⟩
  · intro hnone
    subst hnone
    have hTB2 : executeBuild env none buildID =
        Ev.newBuild buildID :: Ev.setStatus buildID .building :: B := hTB
    rw [hTB2]
    intro hmem
    simp only [List.mem_cons] at hmem
    rcases hmem with h | h | h
    · simp at h
    · simp at h
    · exact hB_noStop h
  · intro hne
    rcases changedFiles with _ | cf
    · exact absurd rfl hne
    · have hTB2 : executeBuild env (some cf) buildID =
          Ev.stopApp :: (Ev.newBuild buildID :: Ev.setStatus buildID .building :: B) := hTB
      refine ⟨_, hTB2, ?_⟩
      intro hmem
      simp only [List.mem_cons] at hmem
      rcases hmem with h | h | h
      · simp at h
      · simp at h
      · exact hB_noStop h
  · obtain ⟨bodyB, hnb, hcase⟩ := hB_body
    rcases changedFiles with _ | cf
    · have hTB2 : executeBuild env none buildID =
          Ev.newBuild buildID :: Ev.setStatus buildID .building :: B := hTB
      refine ⟨Ev.newBuild buildID :: Ev.setStatus buildID .building :: bodyB, ?_, ?_⟩
      · intro hmem
        simp only [List.mem_cons] at hmem
        rcases hmem with h | h | h
        · simp at h
        · simp at h
        · exact hnb h
      · rcases hcase with hc | hc
        · subst hc
          left
          rw [hTB2]
        · subst hc
          right
          rw [hTB2]
          rfl
    · have hTB2 : executeBuild env (some cf) buildID =
          Ev.stopApp :: Ev.newBuild buildID :: Ev.setStatus buildID .building :: B := hTB
      refine ⟨Ev.stopApp :: Ev.newBuild buildID :: Ev.setStatus buildID .building :: bodyB,
        ?_, ?_⟩
      · intro hmem
        simp only [List.mem_cons] at hmem
        rcases hmem with h | h | h | h
        · simp at h
        · simp at h
        · simp at h
        · exact hnb h
      · rcases hcase with hc | hc
        · subst hc
          left
          rw [hTB2]
        · subst hc
          right
          rw [hTB2]
          rfl
  · rw [hTB]
    constructor
    · intro hmem
      rcases List.mem_append.mp hmem with h | h
      · rcases changedFiles with _ | cf <;> simp at h
      · simp only [List.mem_cons] at h
        rcases h with h | h | h
        · simp at h
        · simp at h
        · exact hB_iff.mp h
    · intro hrhs
      apply List.mem_append.mpr
      right
      simp only [List.mem_cons]
      right
      right
      exact hB_iff.mpr hrhs
  · intro hne hbad
    have hnostart : Ev.startApp ∉ executeBuild env changedFiles buildID := by
      rw [hTB]
      intro hmem
      rcases List.mem_append.mp hmem with h | h
      · rcases changedFiles with _ | cf <;> simp at h
      · simp only [List.mem_cons] at h
        rcases h with h | h | h
        · simp at h
        · simp at h
        · have h2 := hB_iff.mp h
          rcases hbad with hb | ⟨r, hr, hrbad⟩
          · exact h2.1 hb
          · exact hrbad (h2.2.1 r hr)
    rcases changedFiles with _ | cf
    · exact absurd rfl hne
    · have hTB2 : executeBuild env (some cf) buildID =
          Ev.stopApp :: (Ev.newBuild buildID :: Ev.setStatus buildID .building :: B) := hTB
      rw [hTB2]
      rw [hTB2] at hnostart
      have hrest : Ev.startApp ∉
          Ev.newBuild buildID :: Ev.setStatus buildID .building :: B := by
        intro hm
        exact hnostart (List.mem_cons_of_mem _ hm)
      exact appRunning_false_pres _ hrest (stepEv ⟨files0, app0⟩ Ev.stopApp) rfl

/-- Witness for C8: a non-startup trigger produces a trace whose first
event is the application stop. -/
theorem c8_witness :
    (some [wPathA] ≠ (none : Option (List Name))) ∧
      ∃ rest, executeBuild wEnv (some [wPathA]) wId1 = Ev.stopApp :: rest ∧
        Ev.stopApp ∉ rest :=
  ⟨by simp, (c8_stop_start_order wEnv (some [wPathA]) wId1 [] false).2.1 (by simp)⟩

end Godevwatch
